import Mathlib

/-
Shallow embedding of the dash-chat streaming SSE handler
(src/langchain_sse_handler.py and src/app_langchain_example.py).

The splitter (`RealTimeSSECallback`) keeps a text buffer, searches it for
the literal delimiters `<think>` and `</think>`, and emits typed events.
Strings are modelled as `List Char`; the event queue items as `QItem`
(an event or the `None` sentinel).
-/

namespace DashChat

/-- Events pushed on the session's queue (the dictionaries built in
`on_llm_start`, `_process_buffer`, `on_llm_end`, `on_llm_error`).
The `message_id` field is constant per session and omitted. -/
inductive Event where
  | stream_start : Event
  | content : List Char → Event
  | thinking_start : Event
  | thinking_end : Event
  | stream_complete : List Char → Event
  | error : List Char → Event
deriving DecidableEq

/-- A queue item: an event dictionary or the `None` end-of-stream sentinel. -/
inductive QItem where
  | ev : Event → QItem
  | sentinel : QItem
deriving DecidableEq

/-- The opening delimiter literal `<think>`. -/
def thinkOpen : List Char := "<think>".toList

/-- The closing delimiter literal `</think>`. -/
def thinkClose : List Char := "</think>".toList

/-- Index of the first occurrence of `pat` in a list, mirroring Python's
`str.index`; `none` mirrors `pat not in s`. -/
def findTag (pat : List Char) : List Char → Option Nat
  | [] => if pat.isPrefixOf ([] : List Char) then some 0 else none
  | c :: rest =>
    if pat.isPrefixOf (c :: rest) then some 0
    else (findTag pat rest).map (fun n => n + 1)

/-- State of `RealTimeSSECallback` relevant to token processing. -/
structure SplitterState where
  full_content : List Char
  in_thinking : Bool
  buffer : List Char
deriving DecidableEq

/-- The callback's initial state (constructor of `RealTimeSSECallback`). -/
def initState : SplitterState :=
  { full_content := [], in_thinking := false, buffer := [] }

/-- The `while True` drain loop of `RealTimeSSECallback._process_buffer`,
as a function of the mutable state it touches (`in_thinking`, `buffer`);
returns the final `in_thinking`, the final `buffer`, and the events put on
the queue, in order.  When `in_thinking` is false and `<think>` occurs, the
text before it is emitted (when non-empty), `thinking_start` is emitted, and
the buffer past the 7-character tag is reprocessed; symmetrically for
`</think>` (8 characters) when inside thinking; otherwise the whole buffer
is flushed as one `content` chunk when it has at least 3 characters, and the
loop breaks. -/
def processBuffer : Bool → List Char → Bool × List Char × List Event
  | false, buffer =>
    match h : findTag thinkOpen buffer with
    | some idx =>
      let pre := buffer.take idx
      let preEvents := if 0 < idx then
          (if pre ≠ [] then [Event.content pre] else []) else []
      let r := processBuffer true (buffer.drop (idx + 7))
      (r.1, r.2.1, preEvents ++ Event.thinking_start :: r.2.2)
    | none =>
      if 3 ≤ buffer.length then (false, [], [Event.content buffer])
      else (false, buffer, [])
  | true, buffer =>
    match h : findTag thinkClose buffer with
    | some idx =>
      let pre := buffer.take idx
      let preEvents := if 0 < idx then
          (if pre ≠ [] then [Event.content pre] else []) else []
      let r := processBuffer false (buffer.drop (idx + 8))
      (r.1, r.2.1, preEvents ++ Event.thinking_end :: r.2.2)
    | none =>
      if 3 ≤ buffer.length then (true, [], [Event.content buffer])
      else (true, buffer, [])
termination_by b buffer => buffer.length
decreasing_by
  · cases buffer with
    | nil =>
      have hn : findTag thinkOpen ([] : List Char) = none := by decide
      rw [hn] at h
      exact Option.noConfusion h
    | cons c rest =>
      simp only [List.length_drop, List.length_cons]
      omega
  · cases buffer with
    | nil =>
      have hn : findTag thinkClose ([] : List Char) = none := by decide
      rw [hn] at h
      exact Option.noConfusion h
    | cons c rest =>
      simp only [List.length_drop, List.length_cons]
      omega

/-- One call of `on_llm_new_token` with the timing branch abstracted away
(both branches of the 20ms rate-limit run `_process_buffer`; see
`TimedSplitterState` and `on_llm_new_token` below for the timed version):
appends the token to `full_content` and `buffer`, then drains the buffer. -/
def feed (st : SplitterState) (token : List Char) : SplitterState × List Event :=
  let r := processBuffer st.in_thinking (st.buffer ++ token)
  ({ full_content := st.full_content ++ token,
     in_thinking := r.1, buffer := r.2.1 }, r.2.2)

/-- Feeding a sequence of tokens in arrival order from a given state,
collecting the emitted events. -/
def runFrom (st : SplitterState) : List (List Char) → SplitterState × List Event
  | [] => (st, [])
  | t :: ts =>
    let r := feed st t
    let rest := runFrom r.1 ts
    (rest.1, r.2 ++ rest.2)

/-- Feeding a sequence of tokens from the initial callback state. -/
def runTokens (tokens : List (List Char)) : SplitterState × List Event :=
  runFrom initState tokens

/-- `RealTimeSSECallback.on_llm_end`: flush the residual buffer (when
non-empty) as a `content` event, emit `stream_complete` carrying
`full_content`, then push the `None` sentinel. -/
def onLLMEnd (st : SplitterState) : List QItem :=
  (if st.buffer ≠ [] then [QItem.ev (Event.content st.buffer)] else [])
    ++ [QItem.ev (Event.stream_complete st.full_content), QItem.sentinel]

/-- `RealTimeSSECallback.on_llm_error` (and the identical `except` branch of
`run_llm`): emit an `error` event carrying the error's message, then push
the `None` sentinel. -/
def onLLMError (msg : List Char) : List QItem :=
  [QItem.ev (Event.error msg), QItem.sentinel]

/-- The events among a list of queue items (dropping the sentinel). -/
def eventsOf (q : List QItem) : List Event :=
  q.filterMap (fun i => match i with
    | QItem.ev e => some e
    | QItem.sentinel => none)

/-- All splitter events of one generation: the events emitted while feeding
the tokens, followed by the end-of-generation events of `on_llm_end`
(`stream_start`, emitted by `on_llm_start` before the first token, is not
produced by the splitter and is not included). -/
def sessionEvents (tokens : List (List Char)) : List Event :=
  (runTokens tokens).2 ++ eventsOf (onLLMEnd (runTokens tokens).1)

/-- Concatenation of the `chunk` fields of all `content` events. -/
def contentConcat : List Event → List Char
  | [] => []
  | Event.content c :: rest => c ++ contentConcat rest
  | _ :: rest => contentConcat rest

/-- The text a list of events stands for: `content` chunks verbatim, with
the `<think>` literal re-inserted at each `thinking_start` and the
`</think>` literal at each `thinking_end`; other events carry no text. -/
def rebuild : List Event → List Char
  | [] => []
  | Event.content c :: rest => c ++ rebuild rest
  | Event.thinking_start :: rest => thinkOpen ++ rebuild rest
  | Event.thinking_end :: rest => thinkClose ++ rebuild rest
  | _ :: rest => rebuild rest

/-- Replays the thinking flag over an event list: `some b` is the flag after
the list, `none` records a nesting violation (`thinking_start` while the
flag is already true, or `thinking_end` while it is false). -/
def nestRun : Bool → List Event → Option Bool
  | b, [] => some b
  | b, Event.thinking_start :: rest => if b then none else nestRun true rest
  | b, Event.thinking_end :: rest => if b then nestRun false rest else none
  | b, _ :: rest => nestRun b rest

/-- Whether every event of a list is a `content` event. -/
def allContent : List Event → Bool
  | [] => true
  | Event.content _ :: rest => allContent rest
  | _ :: _ => false

/-- Whether `thinking_start` occurs in an event list. -/
def hasThinkingStart : List Event → Bool
  | [] => false
  | Event.thinking_start :: _ => true
  | _ :: rest => hasThinkingStart rest

/-- Whether an event list is free of `thinking_start` and `thinking_end`. -/
def noThinkingEvents : List Event → Bool
  | [] => true
  | Event.thinking_start :: _ => false
  | Event.thinking_end :: _ => false
  | _ :: rest => noThinkingEvents rest

/-- State that `on_llm_new_token` actually carries: the splitter state plus
`last_send_time`, in milliseconds (the code stores seconds as a float and
compares against 0.02; only the comparison's outcome can matter). -/
structure TimedSplitterState where
  core : SplitterState
  last_send_time : Nat
deriving DecidableEq

/-- `RealTimeSSECallback.on_llm_new_token` with its rate-limit branch:
append the token, then — whether or not 20ms have passed since
`last_send_time` — run `_process_buffer`; the branch decides only whether
`last_send_time` is advanced. -/
def on_llm_new_token (st : TimedSplitterState) (token : List Char)
    (current_time : Nat) : TimedSplitterState × List Event :=
  let r := feed st.core token
  if 20 ≤ current_time - st.last_send_time then
    ({ core := r.1, last_send_time := current_time }, r.2)
  else
    ({ core := r.1, last_send_time := st.last_send_time }, r.2)

/-- Feeding timestamped tokens through `on_llm_new_token` in arrival order,
from a given timed state, collecting the emitted events. -/
def runTimedFrom (st : TimedSplitterState) :
    List (List Char × Nat) → TimedSplitterState × List Event
  | [] => (st, [])
  | p :: ps =>
    let r := on_llm_new_token st p.1 p.2
    let rest := runTimedFrom r.1 ps
    (rest.1, r.2 ++ rest.2)

/-- Feeding timestamped tokens from the initial state (`last_send_time`
starts at 0, as `getattr`-initialised in the code). -/
def runTimed (inputs : List (List Char × Nat)) : TimedSplitterState × List Event :=
  runTimedFrom { core := initState, last_send_time := 0 } inputs

/-- Server-level state of `app_langchain_example.py` and
`LangChainSSEHandler`: the global `processed_messages` set and the keys of
`active_streams` (the Session Registry); per-key metadata is irrelevant to
the claims and omitted. -/
structure ServerState where
  processed : List String
  active_streams : List String
deriving DecidableEq

/-- Outcome of the `/api/sse/chat` route: 400 for missing parameters, the
200 no-op for an already-processed id, or a started streaming response. -/
inductive SseOutcome where
  | missingParams
  | alreadyProcessed
  | streamStarted
deriving DecidableEq

/-- Registry effect of `LangChainSSEHandler.create_sse_response`:
`self.active_streams[message_id] = {...}` — dictionary assignment, so the
key set gains `msgid` (at most one entry per key). -/
def create_sse_response (active : List String) (msgid : String) : List String :=
  if msgid ∈ active then active else msgid :: active

/-- The `sse_chat` route: reject missing parameters, short-circuit an
already-processed `message_id` with a 200 no-op, otherwise record the id in
`processed_messages` and start the stream via `create_sse_response`. -/
def sse_chat (st : ServerState) (prompt msgid : String) :
    ServerState × SseOutcome :=
  if prompt = "" ∨ msgid = "" then (st, SseOutcome.missingParams)
  else if msgid ∈ st.processed then (st, SseOutcome.alreadyProcessed)
  else
    ({ processed := msgid :: st.processed,
       active_streams := create_sse_response st.active_streams msgid },
     SseOutcome.streamStarted)

/-- The `finally` block of `generate`, run on every exit of the generator
(normal completion and the `except` path alike):
`if message_id in self.active_streams: del self.active_streams[message_id]`. -/
def generateCleanup (active : List String) (msgid : String) : List String :=
  if msgid ∈ active then active.filter (fun k => k ≠ msgid) else active

/-- `LangChainSSEHandler.stop_stream`: when the id is active, push the
sentinel on its queue (not modelled: the registry is keys only), delete the
entry and return true; otherwise return false. -/
def stop_stream (active : List String) (msgid : String) : List String × Bool :=
  if msgid ∈ active then (active.filter (fun k => k ≠ msgid), true)
  else (active, false)

/-- The `active` field of `LangChainSSEHandler.get_stream_status`. -/
def get_stream_status (active : List String) (msgid : String) : Bool :=
  msgid ∈ active

/-! Unfolding lemmas for the drain loop, one per branch of
`_process_buffer`. -/

theorem processBuffer_false_some (buffer : List Char) (idx : Nat)
    (h : findTag thinkOpen buffer = some idx) :
    processBuffer false buffer =
      ((processBuffer true (buffer.drop (idx + 7))).1,
       (processBuffer true (buffer.drop (idx + 7))).2.1,
       (if 0 < idx then
          (if buffer.take idx ≠ [] then [Event.content (buffer.take idx)] else [])
        else [])
         ++ Event.thinking_start :: (processBuffer true (buffer.drop (idx + 7))).2.2) := by
  rw [processBuffer]
  split
  · next idx' h' =>
      rw [h] at h'
      cases h'
      rfl
  · next h' =>
      rw [h] at h'
      cases h'

theorem processBuffer_false_none (buffer : List Char)
    (h : findTag thinkOpen buffer = none) :
    processBuffer false buffer =
      (if 3 ≤ buffer.length then (false, [], [Event.content buffer])
       else (false, buffer, [])) := by
  rw [processBuffer]
  split
  · next idx' h' =>
      rw [h] at h'
      cases h'
  · next h' => rfl

theorem processBuffer_true_some (buffer : List Char) (idx : Nat)
    (h : findTag thinkClose buffer = some idx) :
    processBuffer true buffer =
      ((processBuffer false (buffer.drop (idx + 8))).1,
       (processBuffer false (buffer.drop (idx + 8))).2.1,
       (if 0 < idx then
          (if buffer.take idx ≠ [] then [Event.content (buffer.take idx)] else [])
        else [])
         ++ Event.thinking_end :: (processBuffer false (buffer.drop (idx + 8))).2.2) := by
  conv_lhs => rw [processBuffer]
  split
  · next idx' h' =>
      rw [h] at h'
      cases h'
      rfl
  · next h' =>
      rw [h] at h'
      cases h'

theorem processBuffer_true_none (buffer : List Char)
    (h : findTag thinkClose buffer = none) :
    processBuffer true buffer =
      (if 3 ≤ buffer.length then (true, [], [Event.content buffer])
       else (true, buffer, [])) := by
  conv_lhs => rw [processBuffer]
  split
  · next idx' h' =>
      rw [h] at h'
      cases h'
  · next h' => rfl

/-! Facts about `List.isPrefixOf` and `findTag`. -/

theorem isPrefixOf_drop_eq :
    ∀ p l : List Char, p.isPrefixOf l = true → p ++ l.drop p.length = l := by
  intro p
  induction p with
  | nil => intro l _; simp
  | cons a as ih =>
    intro l h
    cases l with
    | nil => simp [List.isPrefixOf] at h
    | cons b bs =>
      simp only [List.isPrefixOf, Bool.and_eq_true, beq_iff_eq] at h
      obtain ⟨rfl, h2⟩ := h
      simp only [List.length_cons, List.drop_succ_cons, List.cons_append,
        List.cons.injEq, true_and]
      exact ih bs h2

theorem isPrefixOf_append_left :
    ∀ p l l₂ : List Char, p.isPrefixOf l = true → p.isPrefixOf (l ++ l₂) = true := by
  intro p
  induction p with
  | nil => intro l l₂ _; simp [List.isPrefixOf]
  | cons a as ih =>
    intro l l₂ h
    cases l with
    | nil => simp [List.isPrefixOf] at h
    | cons b bs =>
      simp only [List.isPrefixOf, Bool.and_eq_true, beq_iff_eq] at h
      obtain ⟨rfl, h2⟩ := h
      simp only [List.cons_append, List.isPrefixOf, Bool.and_eq_true, beq_iff_eq,
        true_and, beq_self_eq_true]
      exact ih bs l₂ h2

theorem findTag_split :
    ∀ (pat l : List Char) (n : Nat), findTag pat l = some n →
      l.take n ++ pat ++ l.drop (n + pat.length) = l := by
  intro pat l
  induction l with
  | nil =>
    intro n h
    rw [findTag] at h
    split at h
    · next hp =>
      cases h
      cases pat with
      | nil => simp
      | cons a as => simp [List.isPrefixOf] at hp
    · cases h
  | cons c rest ih =>
    intro n h
    rw [findTag] at h
    split at h
    · next hp =>
      cases h
      simpa using isPrefixOf_drop_eq pat (c :: rest) hp
    · next hp =>
      obtain ⟨m, hm, rfl⟩ := Option.map_eq_some'.mp h
      have hgoal := ih m hm
      have harith : m + 1 + pat.length = (m + pat.length) + 1 := by omega
      simp only [List.take_succ_cons, harith, List.drop_succ_cons,
        List.cons_append, List.cons.injEq, true_and]
      exact hgoal

theorem findTag_nil_pat : ∀ l : List Char, findTag [] l = some 0 := by
  intro l
  cases l <;> simp [findTag, List.isPrefixOf]

theorem findTag_ne_none_append :
    ∀ (pat l₁ l₂ : List Char), findTag pat l₁ ≠ none →
      findTag pat (l₁ ++ l₂) ≠ none := by
  intro pat l₁
  induction l₁ with
  | nil =>
    intro l₂ h
    rw [findTag] at h
    split at h
    · next hp =>
      have hp' : pat = [] := by
        cases pat with
        | nil => rfl
        | cons a as => simp [List.isPrefixOf] at hp
      subst hp'
      simp [findTag_nil_pat]
    · exact absurd rfl h
  | cons c rest ih =>
    intro l₂ h
    rw [List.cons_append, findTag]
    split
    · simp
    · next hp =>
      rw [findTag] at h
      split at h
      · next hp0 =>
        exact absurd (isPrefixOf_append_left pat (c :: rest) l₂ hp0)
          (by simpa using hp)
      · have : findTag pat rest ≠ none := by
          intro hr
          rw [hr] at h
          exact h rfl
        have := ih l₂ this
        simp [Option.map_eq_none', this]

theorem findTag_append_none_left (pat l₁ l₂ : List Char)
    (h : findTag pat (l₁ ++ l₂) = none) : findTag pat l₁ = none := by
  by_contra hne
  exact findTag_ne_none_append pat l₁ l₂ hne h

theorem findTag_append_none_right :
    ∀ (pat l₁ l₂ : List Char), findTag pat (l₁ ++ l₂) = none →
      findTag pat l₂ = none := by
  intro pat l₁
  induction l₁ with
  | nil => intro l₂ h; simpa using h
  | cons c rest ih =>
    intro l₂ h
    rw [List.cons_append, findTag] at h
    split at h
    · cases h
    · exact ih l₂ (Option.map_eq_none'.mp h)

/-! Homomorphism lemmas for the event-list folds. -/

theorem rebuild_append :
    ∀ e₁ e₂ : List Event, rebuild (e₁ ++ e₂) = rebuild e₁ ++ rebuild e₂ := by
  intro e₁ e₂
  induction e₁ with
  | nil => simp [rebuild]
  | cons e rest ih => cases e <;> simp [rebuild, ih]

theorem contentConcat_append :
    ∀ e₁ e₂ : List Event,
      contentConcat (e₁ ++ e₂) = contentConcat e₁ ++ contentConcat e₂ := by
  intro e₁ e₂
  induction e₁ with
  | nil => simp [contentConcat]
  | cons e rest ih => cases e <;> simp [contentConcat, ih]

theorem nestRun_append :
    ∀ (e₁ e₂ : List Event) (b : Bool),
      nestRun b (e₁ ++ e₂) = (nestRun b e₁).bind (fun b₁ => nestRun b₁ e₂) := by
  intro e₁
  induction e₁ with
  | nil => intro e₂ b; simp [nestRun]
  | cons e rest ih =>
    intro e₂ b
    cases e <;> simp [nestRun, ih] <;> split <;> simp [ih]

theorem allContent_append :
    ∀ e₁ e₂ : List Event,
      allContent (e₁ ++ e₂) = (allContent e₁ && allContent e₂) := by
  intro e₁ e₂
  induction e₁ with
  | nil => simp [allContent]
  | cons e rest ih => cases e <;> simp [allContent, ih]

theorem noThinkingEvents_append :
    ∀ e₁ e₂ : List Event,
      noThinkingEvents (e₁ ++ e₂) = (noThinkingEvents e₁ && noThinkingEvents e₂) := by
  intro e₁ e₂
  induction e₁ with
  | nil => simp [noThinkingEvents]
  | cons e rest ih => cases e <;> simp [noThinkingEvents, ih]

theorem allContent_noThinkingEvents :
    ∀ e : List Event, allContent e = true → noThinkingEvents e = true := by
  intro e
  induction e with
  | nil => intro _; rfl
  | cons x rest ih =>
    intro h
    cases x <;> simp [allContent] at h <;> simp [noThinkingEvents, ih h]

/-- The text preceding a found delimiter rebuilds to itself (it is emitted
verbatim as a `content` event exactly when non-empty). -/
theorem rebuild_preEvents (l : List Char) (idx : Nat) :
    rebuild (if 0 < idx then
        (if l.take idx ≠ [] then [Event.content (l.take idx)] else [])
      else []) = l.take idx := by
  split
  · split
    · simp [rebuild]
    · next hne =>
      simp only [ne_eq, not_not] at hne
      simp [rebuild, hne]
  · next hpos =>
    have h0 : idx = 0 := by omega
    simp [h0, rebuild]

theorem nestRun_preEvents (l : List Char) (idx : Nat) (b : Bool) :
    nestRun b (if 0 < idx then
        (if l.take idx ≠ [] then [Event.content (l.take idx)] else [])
      else []) = some b := by
  split
  · split <;> simp [nestRun]
  · simp [nestRun]

/-! The drain loop's main invariants, by functional induction. -/

/-- Conservation: the events of one drain, with the consumed delimiters
re-inserted, followed by the residual buffer, spell the buffer drained. -/
theorem processBuffer_rebuild (b : Bool) (buf : List Char) :
    rebuild (processBuffer b buf).2.2 ++ (processBuffer b buf).2.1 = buf := by
  induction b, buf using processBuffer.induct with
  | case1 buffer idx h ih =>
    rw [processBuffer_false_some buffer idx h]
    have hsplit := findTag_split thinkOpen buffer idx h
    have hlen : thinkOpen.length = 7 := by decide
    rw [hlen] at hsplit
    rw [← ih] at hsplit
    simp only [rebuild_append, rebuild_preEvents, rebuild]
    simpa [List.append_assoc] using hsplit
  | case2 buffer h h3 =>
    rw [processBuffer_false_none buffer h]
    simp [h3, rebuild]
  | case3 buffer h h3 =>
    rw [processBuffer_false_none buffer h]
    simp [h3, rebuild]
  | case4 buffer idx h ih =>
    rw [processBuffer_true_some buffer idx h]
    have hsplit := findTag_split thinkClose buffer idx h
    have hlen : thinkClose.length = 8 := by decide
    rw [hlen] at hsplit
    rw [← ih] at hsplit
    simp only [rebuild_append, rebuild_preEvents, rebuild]
    simpa [List.append_assoc] using hsplit
  | case5 buffer h h3 =>
    rw [processBuffer_true_none buffer h]
    simp [h3, rebuild]
  | case6 buffer h h3 =>
    rw [processBuffer_true_none buffer h]
    simp [h3, rebuild]

/-- Nesting: replaying the emitted events from the entry flag neither
violates nesting nor disagrees with the final flag. -/
theorem processBuffer_nestRun (b : Bool) (buf : List Char) :
    nestRun b (processBuffer b buf).2.2 = some ((processBuffer b buf).1) := by
  induction b, buf using processBuffer.induct with
  | case1 buffer idx h ih =>
    rw [processBuffer_false_some buffer idx h]
    simp only [nestRun_append, nestRun_preEvents]
    simp [nestRun, ih]
  | case2 buffer h h3 =>
    rw [processBuffer_false_none buffer h]
    simp [h3, nestRun]
  | case3 buffer h h3 =>
    rw [processBuffer_false_none buffer h]
    simp [h3, nestRun]
  | case4 buffer idx h ih =>
    rw [processBuffer_true_some buffer idx h]
    simp only [nestRun_append, nestRun_preEvents]
    simp [nestRun, ih]
  | case5 buffer h h3 =>
    rw [processBuffer_true_none buffer h]
    simp [h3, nestRun]
  | case6 buffer h h3 =>
    rw [processBuffer_true_none buffer h]
    simp [h3, nestRun]

/-! Lifting the drain invariants through `feed`, `runFrom` and
`on_llm_end`. -/

theorem feed_full_content (st : SplitterState) (t : List Char) :
    (feed st t).1.full_content = st.full_content ++ t := rfl

theorem feed_rebuild (st : SplitterState) (t : List Char) :
    rebuild (feed st t).2 ++ (feed st t).1.buffer = st.buffer ++ t :=
  processBuffer_rebuild st.in_thinking (st.buffer ++ t)

theorem feed_nestRun (st : SplitterState) (t : List Char) :
    nestRun st.in_thinking (feed st t).2 = some ((feed st t).1.in_thinking) :=
  processBuffer_nestRun st.in_thinking (st.buffer ++ t)

theorem runFrom_full_content :
    ∀ (ts : List (List Char)) (st : SplitterState),
      (runFrom st ts).1.full_content = st.full_content ++ ts.flatten := by
  intro ts
  induction ts with
  | nil => intro st; simp [runFrom]
  | cons t rest ih =>
    intro st
    simp only [runFrom, List.flatten]
    rw [ih, feed_full_content, List.append_assoc]

theorem runFrom_rebuild :
    ∀ (ts : List (List Char)) (st : SplitterState),
      rebuild (runFrom st ts).2 ++ (runFrom st ts).1.buffer = st.buffer ++ ts.flatten := by
  intro ts
  induction ts with
  | nil => intro st; simp [runFrom, rebuild]
  | cons t rest ih =>
    intro st
    simp only [runFrom, List.flatten, rebuild_append, List.append_assoc]
    rw [ih, ← List.append_assoc, feed_rebuild, List.append_assoc]

theorem runFrom_nestRun :
    ∀ (ts : List (List Char)) (st : SplitterState),
      nestRun st.in_thinking (runFrom st ts).2 = some ((runFrom st ts).1.in_thinking) := by
  intro ts
  induction ts with
  | nil => intro st; simp [runFrom, nestRun]
  | cons t rest ih =>
    intro st
    simp only [runFrom, nestRun_append]
    rw [feed_nestRun, Option.some_bind]
    exact ih (feed st t).1

theorem eventsOf_onLLMEnd (st : SplitterState) :
    eventsOf (onLLMEnd st) =
      (if st.buffer ≠ [] then [Event.content st.buffer] else [])
        ++ [Event.stream_complete st.full_content] := by
  rw [onLLMEnd]
  split <;> simp [eventsOf]

theorem rebuild_endEvents (st : SplitterState) :
    rebuild (eventsOf (onLLMEnd st)) = st.buffer := by
  rw [eventsOf_onLLMEnd]
  split
  · simp [rebuild]
  · next h =>
    simp only [ne_eq, not_not] at h
    simp [rebuild, h]

theorem contentConcat_endEvents (st : SplitterState) :
    contentConcat (eventsOf (onLLMEnd st)) = st.buffer := by
  rw [eventsOf_onLLMEnd]
  split
  · simp [contentConcat]
  · next h =>
    simp only [ne_eq, not_not] at h
    simp [contentConcat, h]

theorem nestRun_endEvents (st : SplitterState) (b : Bool) :
    nestRun b (eventsOf (onLLMEnd st)) = some b := by
  rw [eventsOf_onLLMEnd]
  split <;> simp [nestRun]

theorem noThinkingEvents_endEvents (st : SplitterState) :
    noThinkingEvents (eventsOf (onLLMEnd st)) = true := by
  rw [eventsOf_onLLMEnd]
  split <;> simp [noThinkingEvents]

/-- A run over tokens whose cumulative text (current buffer plus all text
still to arrive) holds no `<think>` stays out of thinking, emits only
`content` events, and passes every character through to the content chunks
or the residual buffer. -/
theorem runFrom_noTag :
    ∀ (ts : List (List Char)) (fc buf : List Char),
      findTag thinkOpen (buf ++ ts.flatten) = none →
      (runFrom ⟨fc, false, buf⟩ ts).1.in_thinking = false ∧
      allContent (runFrom ⟨fc, false, buf⟩ ts).2 = true ∧
      contentConcat (runFrom ⟨fc, false, buf⟩ ts).2 ++ (runFrom ⟨fc, false, buf⟩ ts).1.buffer
        = buf ++ ts.flatten := by
  intro ts
  induction ts with
  | nil =>
    intro fc buf h
    simp [runFrom, allContent, contentConcat]
  | cons t rest ih =>
    intro fc buf h
    have hjoin : buf ++ (t :: rest).flatten = (buf ++ t) ++ rest.flatten := by
      simp [List.flatten, List.append_assoc]
    rw [hjoin] at h
    have hnow : findTag thinkOpen (buf ++ t) = none :=
      findTag_append_none_left thinkOpen (buf ++ t) rest.flatten h
    have hfeed : feed ⟨fc, false, buf⟩ t =
        ({ full_content := fc ++ t, in_thinking := false,
           buffer := if 3 ≤ (buf ++ t).length then [] else buf ++ t },
         if 3 ≤ (buf ++ t).length then [Event.content (buf ++ t)] else []) := by
      rw [feed]
      simp only
      rw [processBuffer_false_none (buf ++ t) hnow]
      split <;> rfl
    by_cases h3 : 3 ≤ (buf ++ t).length
    · have hfeed3 : feed ⟨fc, false, buf⟩ t =
          ({ full_content := fc ++ t, in_thinking := false, buffer := [] },
           [Event.content (buf ++ t)]) := by
        rw [hfeed]; simp only [if_pos h3]
      have hrest : findTag thinkOpen ([] ++ rest.flatten) = none := by
        simpa using findTag_append_none_right thinkOpen (buf ++ t) rest.flatten h
      have hind := ih (fc ++ t) [] hrest
      simp only [runFrom, hfeed3]
      refine ⟨hind.1, ?_, ?_⟩
      · rw [allContent_append]
        simpa [allContent] using hind.2.1
      · rw [contentConcat_append]
        have h4 := hind.2.2
        simp only [List.nil_append] at h4
        simp [contentConcat, List.append_assoc, h4]
    · have hfeed3 : feed ⟨fc, false, buf⟩ t =
          ({ full_content := fc ++ t, in_thinking := false, buffer := buf ++ t },
           []) := by
        rw [hfeed]; simp only [if_neg h3]
      have hrest : findTag thinkOpen ((buf ++ t) ++ rest.flatten) = none := h
      have hind := ih (fc ++ t) (buf ++ t) hrest
      simp only [runFrom, hfeed3]
      refine ⟨hind.1, ?_, ?_⟩
      · rw [allContent_append]
        simpa [allContent] using hind.2.1
      · rw [contentConcat_append]
        simpa [contentConcat, List.append_assoc] using hind.2.2

/-- The timed token handler emits the same events and reaches the same
splitter state as the untimed one, whatever the timestamps. -/
theorem runTimedFrom_eq :
    ∀ (inputs : List (List Char × Nat)) (core : SplitterState) (last : Nat),
      (runTimedFrom ⟨core, last⟩ inputs).2 = (runFrom core (inputs.map Prod.fst)).2 ∧
      (runTimedFrom ⟨core, last⟩ inputs).1.core = (runFrom core (inputs.map Prod.fst)).1 := by
  intro inputs
  induction inputs with
  | nil => intro core last; simp [runTimedFrom, runFrom]
  | cons p ps ih =>
    intro core last
    simp only [runTimedFrom, runFrom, List.map_cons, on_llm_new_token]
    by_cases h20 : 20 ≤ p.2 - last
    · simp only [h20, if_true]
      have := ih (feed core p.1).1 p.2
      exact ⟨by rw [this.1], this.2⟩
    · simp only [h20, if_false]
      have := ih (feed core p.1).1 last
      exact ⟨by rw [this.1], this.2⟩

/-! The claims. -/

/-- C1 (corrected), counterexample: for the single token `<think>` the
concatenation of all `content` chunks is empty, while `stream_complete`
carries the literal `<think>` — the two differ, because `full_content`
accumulates raw tokens including the delimiters while the delimiters are
excised from the `content` chunks. -/
theorem c1_chunks_ne_full_content :
    (runTokens [thinkOpen]).1.full_content = thinkOpen ∧
    Event.stream_complete ((runTokens [thinkOpen]).1.full_content) ∈
      sessionEvents [thinkOpen] ∧
    contentConcat (sessionEvents [thinkOpen]) ≠ (runTokens [thinkOpen]).1.full_content := by
  have e2 : processBuffer true ([] : List Char) = (true, [], []) := by
    rw [processBuffer_true_none _ (by decide)]
    decide
  have e1 : processBuffer false thinkOpen = (true, [], [Event.thinking_start]) := by
    rw [processBuffer_false_some thinkOpen 0 (by decide)]
    have hd : thinkOpen.drop (0 + 7) = ([] : List Char) := by decide
    rw [hd, e2]
    decide
  have e4 : runTokens [thinkOpen] =
      ({ full_content := thinkOpen, in_thinking := true, buffer := [] },
       [Event.thinking_start]) := by
    simp only [runTokens, runFrom, feed, initState, List.nil_append,
      List.append_nil, e1]
  have e5 : sessionEvents [thinkOpen] =
      [Event.thinking_start, Event.stream_complete thinkOpen] := by
    rw [sessionEvents, e4]
    rfl
  refine ⟨by rw [e4], ?_, ?_⟩
  · rw [e4, e5]
    simp
  · rw [e4, e5]
    decide

/-- C1 (corrected), amended claim: at end-of-generation the concatenation
of all emitted `content` chunks, with the `<think>`/`</think>` literals
re-inserted at the `thinking_start`/`thinking_end` events (in emission
order), equals the `full_content` carried by `stream_complete`, which is
the raw concatenation of the fed tokens. -/
theorem c1_rebuild_eq_full_content (tokens : List (List Char)) :
    rebuild (sessionEvents tokens) = (runTokens tokens).1.full_content ∧
    (runTokens tokens).1.full_content = tokens.flatten ∧
    Event.stream_complete ((runTokens tokens).1.full_content) ∈ sessionEvents tokens := by
  have hrt : runTokens tokens = runFrom ⟨[], false, []⟩ tokens := rfl
  have h1 := runFrom_rebuild tokens ⟨[], false, []⟩
  have h2 := runFrom_full_content tokens ⟨[], false, []⟩
  simp only [List.nil_append] at h1 h2
  refine ⟨?_, ?_, ?_⟩
  · rw [sessionEvents, rebuild_append, rebuild_endEvents, hrt, h1, h2]
  · rw [hrt, h2]
  · rw [sessionEvents]
    apply List.mem_append_right
    rw [eventsOf_onLLMEnd]
    apply List.mem_append_right
    simp

/-- C2 (corrected), counterexample: feeding `<thi` then `nk>` does not
reassemble the delimiter — the 3-character flush threshold has already
emitted `<thi` as literal content before the rest arrives, so no
`thinking_start` is ever emitted and both chunks carry fragments of the
tag. -/
theorem c2_flushed_fragments :
    sessionEvents ["<thi".toList, "nk>".toList] =
      [Event.content "<thi".toList, Event.content "nk>".toList,
       Event.stream_complete "<think>".toList] ∧
    hasThinkingStart (sessionEvents ["<thi".toList, "nk>".toList]) = false := by
  have e1 : processBuffer false "<thi".toList =
      (false, [], [Event.content "<thi".toList]) := by
    rw [processBuffer_false_none _ (by decide)]
    decide
  have e2 : processBuffer false "nk>".toList =
      (false, [], [Event.content "nk>".toList]) := by
    rw [processBuffer_false_none _ (by decide)]
    decide
  have e4 : sessionEvents ["<thi".toList, "nk>".toList] =
      [Event.content "<thi".toList, Event.content "nk>".toList,
       Event.stream_complete "<think>".toList] := by
    simp only [sessionEvents, runTokens, runFrom, feed, initState, List.nil_append, e1, e2]
    decide
  exact ⟨e4, by rw [e4]; rfl⟩

/-- C2 (corrected), amended claim: when the opening delimiter is split
across two feeds and the fragment buffered after the first feed is shorter
than the 3-character flush threshold (for example `<t` then `hink>`), the
splitter reassembles it and the session emits exactly one `thinking_start`
and no `content` event at all (in particular none carrying a fragment of
the tag). -/
theorem c2_short_split_reassembled (s1 s2 : List Char)
    (hsplit : s1 ++ s2 = thinkOpen) (hshort : s1.length < 3) :
    sessionEvents [s1, s2] =
      [Event.thinking_start, Event.stream_complete thinkOpen] := by
  have key : ∀ u v : List Char, u ++ v = thinkOpen → findTag thinkOpen u = none →
      ¬ 3 ≤ u.length →
      sessionEvents [u, v] = [Event.thinking_start, Event.stream_complete thinkOpen] := by
    intro u v husplit hufind hulen
    have e1 : processBuffer false u = (false, u, []) := by
      rw [processBuffer_false_none _ hufind, if_neg hulen]
    have e2 : processBuffer false (u ++ v) = (true, [], [Event.thinking_start]) := by
      rw [husplit, processBuffer_false_some thinkOpen 0 (by decide)]
      have hd : thinkOpen.drop (0 + 7) = ([] : List Char) := by decide
      rw [hd, processBuffer_true_none _ (by decide)]
      decide
    simp only [sessionEvents, runTokens, runFrom, feed, initState, List.nil_append, e1, e2]
    simp [onLLMEnd, eventsOf, husplit]
  have ht : thinkOpen = ['<', 't', 'h', 'i', 'n', 'k', '>'] := by decide
  cases s1 with
  | nil =>
    rw [List.nil_append] at hsplit
    subst hsplit
    exact key [] thinkOpen (by simp) (by decide) (by decide)
  | cons a t1 =>
    cases t1 with
    | nil =>
      rw [ht] at hsplit
      simp only [List.cons_append, List.nil_append, List.cons.injEq] at hsplit
      obtain ⟨rfl, rfl⟩ := hsplit
      exact key ['<'] ['t', 'h', 'i', 'n', 'k', '>'] (by decide) (by decide) (by decide)
    | cons b t2 =>
      cases t2 with
      | nil =>
        rw [ht] at hsplit
        simp only [List.cons_append, List.nil_append, List.cons.injEq] at hsplit
        obtain ⟨rfl, rfl, rfl⟩ := hsplit
        exact key ['<', 't'] ['h', 'i', 'n', 'k', '>'] (by decide) (by decide) (by decide)
      | cons c t3 =>
        exfalso
        simp only [List.length_cons] at hshort
        omega

/-- C2 witness: the amended claim at the concrete split `<t` / `hink>`. -/
theorem c2_short_split_witness :
    ("<t".toList ++ "hink>".toList = thinkOpen ∧ "<t".toList.length < 3) ∧
    sessionEvents ["<t".toList, "hink>".toList] =
      [Event.thinking_start, Event.stream_complete thinkOpen] :=
  ⟨⟨by decide, by decide⟩,
   c2_short_split_reassembled "<t".toList "hink>".toList (by decide) (by decide)⟩

/-- C3 (confirmed): replaying the thinking flag from `false` over every
session's event sequence never hits a violation — `thinking_start` is only
emitted with the flag false and `thinking_end` only with it true — and the
replay ends at the splitter's final flag. -/
theorem c3_nesting_invariant (tokens : List (List Char)) :
    nestRun false (sessionEvents tokens) = some ((runTokens tokens).1.in_thinking) := by
  have h : nestRun false (runFrom initState tokens).2 =
      some ((runFrom initState tokens).1.in_thinking) :=
    runFrom_nestRun tokens initState
  simp only [sessionEvents, runTokens, nestRun_append, h, Option.some_bind]
  exact nestRun_endEvents _ _

/-- C4 (confirmed): when the concatenated input holds neither `<think>`
nor `</think>`, the splitter emits only `content` events, the session never
emits `thinking_start`/`thinking_end`, and the concatenated chunks (after
the end-of-generation flush) equal the concatenated input. -/
theorem c4_no_tags_passthrough (tokens : List (List Char))
    (h1 : findTag thinkOpen tokens.flatten = none)
    (h2 : findTag thinkClose tokens.flatten = none) :
    allContent (runTokens tokens).2 = true ∧
    noThinkingEvents (sessionEvents tokens) = true ∧
    contentConcat (sessionEvents tokens) = tokens.flatten := by
  have hrt : runTokens tokens = runFrom ⟨[], false, []⟩ tokens := rfl
  have hbuf : findTag thinkOpen (([] : List Char) ++ tokens.flatten) = none := by
    simpa using h1
  have hrun := runFrom_noTag tokens [] [] hbuf
  refine ⟨?_, ?_, ?_⟩
  · rw [hrt]
    exact hrun.2.1
  · rw [sessionEvents, noThinkingEvents_append, noThinkingEvents_endEvents, hrt]
    simp [allContent_noThinkingEvents _ hrun.2.1]
  · rw [sessionEvents, contentConcat_append, contentConcat_endEvents, hrt]
    simpa using hrun.2.2

/-- C4 witness: the tag-free run `ab`, `cde`. -/
theorem c4_no_tags_witness :
    (findTag thinkOpen ["ab".toList, "cde".toList].flatten = none ∧
     findTag thinkClose ["ab".toList, "cde".toList].flatten = none) ∧
    (allContent (runTokens ["ab".toList, "cde".toList]).2 = true ∧
     noThinkingEvents (sessionEvents ["ab".toList, "cde".toList]) = true ∧
     contentConcat (sessionEvents ["ab".toList, "cde".toList]) =
       ["ab".toList, "cde".toList].flatten) :=
  ⟨⟨by decide, by decide⟩, c4_no_tags_passthrough _ (by decide) (by decide)⟩

/-- C5 (confirmed): the single token `abc<think>def</think>ghi` produces
exactly `content("abc")`, `thinking_start`, `content("def")`,
`thinking_end`, `content("ghi")`, then `stream_complete` carrying the raw
accumulated text. -/
theorem c5_single_token_sequence :
    sessionEvents ["abc<think>def</think>ghi".toList] =
      [Event.content "abc".toList, Event.thinking_start,
       Event.content "def".toList, Event.thinking_end,
       Event.content "ghi".toList,
       Event.stream_complete "abc<think>def</think>ghi".toList] := by
  have e3 : processBuffer false "ghi".toList =
      (false, [], [Event.content "ghi".toList]) := by
    rw [processBuffer_false_none _ (by decide)]
    decide
  have e2 : processBuffer true "def</think>ghi".toList =
      (false, [], [Event.content "def".toList, Event.thinking_end,
                   Event.content "ghi".toList]) := by
    rw [processBuffer_true_some _ 3 (by decide)]
    have hd : "def</think>ghi".toList.drop (3 + 8) = "ghi".toList := by decide
    rw [hd, e3]
    decide
  have e1 : processBuffer false "abc<think>def</think>ghi".toList =
      (false, [], [Event.content "abc".toList, Event.thinking_start,
                   Event.content "def".toList, Event.thinking_end,
                   Event.content "ghi".toList]) := by
    rw [processBuffer_false_some _ 3 (by decide)]
    have hd : "abc<think>def</think>ghi".toList.drop (3 + 7) =
        "def</think>ghi".toList := by decide
    rw [hd, e2]
    decide
  simp only [sessionEvents, runTokens, runFrom, feed, initState, List.nil_append, e1]
  rfl

/-- C6 (confirmed): with valid parameters and a fresh `message_id`, the
first request starts a stream and the second request with the same id is
short-circuited as already processed, leaving the server state — in
particular the Session Registry — unchanged, so no second session is
created. -/
theorem c6_duplicate_request (st : ServerState) (p1 p2 msgid : String)
    (hp1 : p1 ≠ "") (hp2 : p2 ≠ "") (hid : msgid ≠ "")
    (hnew : msgid ∉ st.processed) :
    (sse_chat st p1 msgid).2 = SseOutcome.streamStarted ∧
    (sse_chat (sse_chat st p1 msgid).1 p2 msgid).2 = SseOutcome.alreadyProcessed ∧
    (sse_chat (sse_chat st p1 msgid).1 p2 msgid).1 = (sse_chat st p1 msgid).1 := by
  have hfirst : sse_chat st p1 msgid =
      ({ processed := msgid :: st.processed,
         active_streams := create_sse_response st.active_streams msgid },
       SseOutcome.streamStarted) := by
    rw [sse_chat, if_neg (by simp [hp1, hid]), if_neg hnew]
  have hsecond : sse_chat (sse_chat st p1 msgid).1 p2 msgid =
      ((sse_chat st p1 msgid).1, SseOutcome.alreadyProcessed) := by
    rw [hfirst]
    rw [sse_chat, if_neg (by simp [hp2, hid]), if_pos (by simp)]
  exact ⟨by rw [hfirst], by rw [hsecond], by rw [hsecond]⟩

/-- C6 witness: empty server state, prompts `hi`/`ho`, id `m1`. -/
theorem c6_duplicate_witness :
    ("hi" ≠ "" ∧ "ho" ≠ "" ∧ "m1" ≠ "" ∧
     "m1" ∉ (ServerState.mk [] []).processed) ∧
    ((sse_chat ⟨[], []⟩ "hi" "m1").2 = SseOutcome.streamStarted ∧
     (sse_chat (sse_chat ⟨[], []⟩ "hi" "m1").1 "ho" "m1").2 =
       SseOutcome.alreadyProcessed ∧
     (sse_chat (sse_chat ⟨[], []⟩ "hi" "m1").1 "ho" "m1").1 =
       (sse_chat ⟨[], []⟩ "hi" "m1").1) :=
  ⟨⟨by decide, by decide, by decide, by decide⟩,
   c6_duplicate_request ⟨[], []⟩ "hi" "ho" "m1" (by decide) (by decide)
     (by decide) (by decide)⟩

/-- C7 (confirmed): the `finally` cleanup of the streaming generator (run on
normal completion and on the error path alike) and `stop_stream` both leave
the registry without the session's entry, so `get_stream_status` reports
inactive afterwards. -/
theorem c7_registry_released (active : List String) (msgid : String) :
    get_stream_status (generateCleanup active msgid) msgid = false ∧
    get_stream_status (stop_stream active msgid).1 msgid = false := by
  constructor
  · rw [generateCleanup]
    split
    · simp [get_stream_status, List.mem_filter]
    · next h => simp [get_stream_status, h]
  · rw [stop_stream]
    split
    · simp [get_stream_status, List.mem_filter]
    · next h => simp [get_stream_status, h]

/-- C8 (confirmed): on an upstream error the callback pushes exactly the
`error` event carrying the error's message followed by the `None` sentinel;
no `content` event (in particular no residual-buffer flush) is pushed on
this path. -/
theorem c8_error_event_then_sentinel (msg : List Char) :
    onLLMError msg = [QItem.ev (Event.error msg), QItem.sentinel] ∧
    ∀ c : List Char, QItem.ev (Event.content c) ∉ onLLMError msg := by
  refine ⟨rfl, ?_⟩
  intro c
  simp [onLLMError]

/-- C9 (confirmed): the drain loop terminates (it is a total function of
the entry flag and buffer — each delimiter branch strictly shortens the
buffer and the no-delimiter branch breaks), and the residual buffer it
leaves always holds fewer than 3 characters. -/
theorem c9_drain_buffer_below_threshold (b : Bool) (buf : List Char) :
    ((processBuffer b buf).2.1).length < 3 := by
  induction b, buf using processBuffer.induct with
  | case1 buffer idx h ih =>
    rw [processBuffer_false_some buffer idx h]
    exact ih
  | case2 buffer h h3 =>
    rw [processBuffer_false_none buffer h]
    simp [if_pos h3]
  | case3 buffer h h3 =>
    rw [processBuffer_false_none buffer h]
    simp only [if_neg h3]
    omega
  | case4 buffer idx h ih =>
    rw [processBuffer_true_some buffer idx h]
    exact ih
  | case5 buffer h h3 =>
    rw [processBuffer_true_none buffer h]
    simp [if_pos h3]
  | case6 buffer h h3 =>
    rw [processBuffer_true_none buffer h]
    simp only [if_neg h3]
    omega

/-- C10 (confirmed): the 20ms rate-limit branch of `on_llm_new_token` is
unobservable in the event stream — both branches drain the buffer — so the
timed handler emits exactly the events of the timing-free handler on the
same token sequence and reaches the same splitter state: the emitted events
are a function of the fed tokens alone. -/
theorem c10_rate_limit_unobservable (inputs : List (List Char × Nat)) :
    (runTimed inputs).2 = (runTokens (inputs.map Prod.fst)).2 ∧
    (runTimed inputs).1.core = (runTokens (inputs.map Prod.fst)).1 :=
  runTimedFrom_eq inputs initState 0

end DashChat
